import Mathlib

/-!
Shallow embedding of `src/chacha20.c` (ChaCha20 stream cipher and the
Poly1305 MAC routine) from the `dasshiva/crypto` repository, together with
theorems checking the natural-language specification against it.

Modelling conventions:
* machine words (`uint32_t`) are `Nat` reduced `% 2^32` wherever the C code
  can overflow; bytes (`uint8_t`) are `Nat` values below 256;
* C arrays and buffers are `List Nat`; a `uint8_t*` view of a `uint32_t[16]`
  array is the little-endian serialization (the code assumes a little-endian
  64-bit platform, and the spec fixes little-endian serialization);
* in-place updates become explicit state passing.
-/

set_option maxRecDepth 8000

/-- `2^32`, the modulus of all `uint32_t` arithmetic in the source. -/
def M32 : Nat := 4294967296

/-- `rol` from chacha20.c: `(n << x) | (n >> (32 - x))` on `uint32_t`. -/
def rol (n x : Nat) : Nat := ((n <<< x) ||| (n >>> (32 - x))) % M32

/-- `QuarterRound` from chacha20.c: reads words `p1 p2 p3 p4` of the state,
runs the four ARX steps, writes them back. -/
def QuarterRound (s : List Nat) (p1 p2 p3 p4 : Nat) : List Nat :=
  let a := s.getD p1 0
  let b := s.getD p2 0
  let c := s.getD p3 0
  let d := s.getD p4 0
  let a := (a + b) % M32
  let d := rol (d ^^^ a) 16
  let c := (c + d) % M32
  let b := rol (b ^^^ c) 12
  let a := (a + b) % M32
  let d := rol (d ^^^ a) 8
  let c := (c + d) % M32
  let b := rol (b ^^^ c) 7
  (((s.set p1 a).set p2 b).set p3 c).set p4 d

/-- One double round: the eight `QuarterRound` calls of the loop body in
`ChaCha20Block` (column rounds then diagonal rounds). -/
def innerBlock (s : List Nat) : List Nat :=
  QuarterRound (QuarterRound (QuarterRound (QuarterRound
    (QuarterRound (QuarterRound (QuarterRound (QuarterRound
      s 0 4 8 12) 1 5 9 13) 2 6 10 14) 3 7 11 15)
    0 5 10 15) 1 6 11 12) 2 7 8 13) 3 4 9 14

/-- The `for (i = 0; i < 10; i++)` loop of `ChaCha20Block`. -/
def doubleRounds : Nat → List Nat → List Nat
  | 0, s => s
  | n + 1, s => doubleRounds n (innerBlock s)

/-- Four bytes read as a little-endian 32-bit word (`memcpy` into
`uint32_t` on a little-endian platform). -/
def le32 (b0 b1 b2 b3 : Nat) : Nat :=
  b0 + 256 * b1 + 65536 * b2 + 16777216 * b3

/-- A byte buffer read as consecutive little-endian 32-bit words. -/
def bytesToWords : List Nat → List Nat
  | b0 :: b1 :: b2 :: b3 :: rest => le32 b0 b1 b2 b3 :: bytesToWords rest
  | _ => []

/-- The four little-endian bytes of a 32-bit word. -/
def wordBytes (w : Nat) : List Nat :=
  [w % 256, w / 256 % 256, w / 65536 % 256, w / 16777216 % 256]

/-- A word array viewed through a `uint8_t*` on a little-endian platform. -/
def wordsToBytes (ws : List Nat) : List Nat :=
  (ws.map wordBytes).flatten

/-- State initialization of `ChaCha20Block` (chacha20.c lines 99-115):
four ASCII constants, eight key words, the block counter, three nonce
words, all little-endian. -/
def initState (key nonce : List Nat) (counter : Nat) : List Nat :=
  [0x61707865, 0x3320646e, 0x79622d32, 0x6b206574]
    ++ bytesToWords (key.take 32) ++ [counter % M32]
    ++ bytesToWords (nonce.take 12)

/-- `ChaCha20Block` as a pure function of key, nonce and counter: the 16
output words (initial state plus the state after 10 double rounds,
word-wise mod `2^32`). -/
def ChaCha20Block (key nonce : List Nat) (counter : Nat) : List Nat :=
  let st := initState key nonce counter
  let ws := doubleRounds 10 st
  (List.range 16).map (fun i => (st.getD i 0 + ws.getD i 0) % M32)

/-- The 64-byte serialized keystream block: `ChaCha20Block`'s output words
viewed through the `uint8_t* block = (uint8_t*)state.cc_state` cast. -/
def blockBytes (key nonce : List Nat) (counter : Nat) : List Nat :=
  wordsToBytes (ChaCha20Block key nonce counter)

/-- `data[off+j] ^= ks[j]` for `0 ≤ j < len`, on a buffer of fixed
length: one XOR pass of the `Encrypt` loops. Indices outside the buffer
are not written (the C caller guarantees the buffer is long enough). -/
def xorSlice (data ks : List Nat) (off len : Nat) : List Nat :=
  (List.range data.length).map (fun idx =>
    if off ≤ idx ∧ idx < off + len then
      data.getD idx 0 ^^^ ks.getD (idx - off) 0
    else data.getD idx 0)

/-- The `for (i = 0; i < (size/64); i++)` loop of `Encrypt`: iteration `i`
runs `ChaCha20Block` at the current `uint32_t` counter (which the block
function then increments, wrapping mod `2^32`) and XORs the 64 keystream
bytes into `data[i*64 .. i*64+63]`. Returns the final counter, the list of
keystream blocks generated, and the transformed buffer. -/
def fullBlocks (key nonce : List Nat) (ctr : Nat) (data : List Nat) :
    Nat → Nat × List (List Nat) × List Nat
  | 0 => (ctr, [], data)
  | n + 1 =>
    let s := fullBlocks key nonce ctr data n
    ((s.1 + 1) % M32,
     s.2.1 ++ [blockBytes key nonce s.1],
     xorSlice s.2.2 (blockBytes key nonce s.1) (n * 64) 64)

/-- `Encrypt` from chacha20.c, instrumented with the list of keystream
blocks it generates: counter starts at 1, `size/64` full-block XOR passes,
then one partial pass of `size % 64` bytes when `size % 64 != 0`. -/
def EncryptRun (data : List Nat) (size : Nat) (key nonce : List Nat) :
    List (List Nat) × List Nat :=
  let s := fullBlocks key nonce 1 data (size / 64)
  if size % 64 ≠ 0 then
    (s.2.1 ++ [blockBytes key nonce s.1],
     xorSlice s.2.2 (blockBytes key nonce s.1) (size / 64 * 64) (size % 64))
  else (s.2.1, s.2.2)

/-- `Encrypt(d, size, k, n)`: the buffer after the in-place transform. -/
def Encrypt (data : List Nat) (size : Nat) (key nonce : List Nat) : List Nat :=
  (EncryptRun data size key nonce).2

/-- The `Decrypt` macro of chacha20.h: an alias for `Encrypt`. -/
def Decrypt (data : List Nat) (size : Nat) (key nonce : List Nat) : List Nat :=
  Encrypt data size key nonce

/-- `Poly1305GenKey`: the keystream block at counter 0 whose 32 first bytes
are the one-time `(r, s)` subkey (left in `ks.cc_state[0..7]`). -/
def poly1305KeyBlock (key nonce : List Nat) : List Nat :=
  blockBytes key nonce 0

/-- The clamp of `r` in `Poly1305MAC` (chacha20.c lines 233-239): seven
in-place byte updates on the `uint8_t*` view of the subkey state. -/
def clamp (r : List Nat) : List Nat :=
  let r := r.set 3 (r.getD 3 0 &&& 15)
  let r := r.set 7 (r.getD 7 0 &&& 15)
  let r := r.set 11 (r.getD 11 0 &&& 15)
  let r := r.set 15 (r.getD 15 0 &&& 15)
  let r := r.set 4 (r.getD 4 0 &&& 252)
  let r := r.set 8 (r.getD 8 0 &&& 252)
  let r := r.set 12 (r.getD 12 0 &&& 252)
  r

/-- The clamped `r` bytes used by `Poly1305MAC`: bytes 0-15 of the
counter-0 keystream block, clamped. -/
def poly1305RBytes (key nonce : List Nat) : List Nat :=
  clamp ((poly1305KeyBlock key nonce).take 16)

/-- The `s` bytes of the one-time subkey: bytes 16-31 of the counter-0
keystream block (`ks.cc_state + 4`), untouched by the clamp. -/
def poly1305SBytes (key nonce : List Nat) : List Nat :=
  ((poly1305KeyBlock key nonce).drop 16).take 16

/-- The inner `for (int j = 0; j <= used; j++)` loop of `Poly1305MAC`:
every iteration recomputes `sum = tag[i] + n[i] + carry` into a dead local
and updates only `carry`; `tag[i]` and `n[i]` do not vary with `j`. -/
def carryLoop (ti ni : Nat) : Nat → Nat → Nat
  | carry, 0 => carry
  | carry, j + 1 =>
    let c := carryLoop ti ni carry j
    if ti + ni + c > 255 then 1 else 0

/-- One iteration of the outer chunk loop of `Poly1305MAC` for block index
`i` (1-based) with `rem` bytes of the message still uncounted: builds the
17-byte padded chunk `n`, runs the carry loop (whose result is discarded by
the C code), and returns the updated `rem` together with the untouched
`tag` buffer. -/
def macIter (msg tag : List Nat) (i rem : Nat) : Nat × List Nat :=
  let nArr : List Nat :=
    if rem > 16 then ((msg.drop ((i - 1) * 16)).take 16) ++ [1]
    else ((msg.drop ((i - 1) * 16)).take rem) ++ [1] ++ List.replicate (16 - rem) 0
  let used := if rem > 16 then 16 else rem
  let rem2 := if rem > 16 then rem - 16 else rem
  let _sum := carryLoop (tag.getD i 0) (nArr.getD i 0) 0 (used + 1)
  (rem2, tag)

/-- The outer `for (uint64_t i = 1; i <= nblocks; i++)` loop of
`Poly1305MAC`, iterated `k` times starting from state `(rem, tag)`. -/
def macBlocks (msg : List Nat) : Nat → Nat × List Nat → Nat × List Nat
  | 0, st => st
  | k + 1, st =>
    let st2 := macBlocks msg k st
    macIter msg st2.2 (k + 1) st2.1

/-- `Poly1305MAC(tag, msg, size, key, nonce)`: derives and clamps the
subkey, then runs the chunk loop; returns the `tag` buffer as the caller
sees it after the call. -/
def Poly1305MAC (tag msg : List Nat) (size : Nat) (key nonce : List Nat) :
    List Nat :=
  let _r := poly1305RBytes key nonce
  let _s := poly1305SBytes key nonce
  let nblocks := if size % 16 = 0 then size / 16 else size / 16 + 1
  (macBlocks msg nblocks (size, tag)).2

/-- A byte list read as a little-endian natural number. -/
def leNum (bs : List Nat) : Nat :=
  bs.foldr (fun b acc => b + 256 * acc) 0

/-- The Poly1305 prime `2^130 - 5`. -/
def poly1305P : Nat := 1361129467683753853853498429727072845819

/-- The `n` least-significant little-endian bytes of a natural number. -/
def natToLE : Nat → Nat → List Nat
  | 0, _ => []
  | k + 1, v => v % 256 :: natToLE k (v / 256)

/-- Splitting into 16-byte chunks, with enough fuel to finish. -/
def chunk16Go : Nat → List Nat → List (List Nat)
  | 0, _ => []
  | fuel + 1, l => if l = [] then [] else l.take 16 :: chunk16Go fuel (l.drop 16)

/-- The message split into 16-byte chunks, the last possibly shorter. -/
def chunk16 (l : List Nat) : List (List Nat) :=
  chunk16Go l.length l

/-- Modelled from the spec (§4.3 step 4), for comparison with the source's
`Poly1305MAC`: the left-to-right Poly1305 accumulation
`acc = ((acc + chunk_value) * r) mod (2^130 - 5)` over the padded chunks,
each chunk read little-endian with a `0x01` byte appended. -/
def specAccum (r : Nat) (chunks : List (List Nat)) : Nat :=
  chunks.foldl (fun acc c => ((acc + leNum (c ++ [1])) * r) % poly1305P) 0

/-- Modelled from the spec (§4.3), for comparison with the source's
`Poly1305MAC`: the RFC 8439 tag — subkey `(r, s)` from the counter-0
keystream block with `r` clamped, polynomial accumulation over the 16-byte
chunks, and `(acc + s) mod 2^128` serialized little-endian into 16 bytes. -/
def specTag (msg key nonce : List Nat) : List Nat :=
  let r := leNum (poly1305RBytes key nonce)
  let s := leNum (poly1305SBytes key nonce)
  natToLE 16 ((specAccum r (chunk16 msg) + s) % (2 ^ 128))

/-- The RFC 8439 §2.3.2 test-vector key: bytes `00, 01, ..., 1f`. -/
def rfcKey : List Nat := List.range 32

/-- The RFC 8439 §2.3.2 test-vector nonce
`00 00 00 09 00 00 00 4a 00 00 00 00`. -/
def rfcNonce : List Nat := [0, 0, 0, 9, 0, 0, 0, 0x4a, 0, 0, 0, 0]

/-- C2: for the key `00,01,...,1f`, the nonce `000000090000004a00000000` and
block counter 1, the block engine produces exactly the 64-byte keystream
block published in RFC 8439 §2.3.2. -/
theorem chacha20Block_matches_rfc8439_vector :
    blockBytes rfcKey rfcNonce 1 =
      [0x10, 0xf1, 0xe7, 0xe4, 0xd1, 0x3b, 0x59, 0x15,
       0x50, 0x0f, 0xdd, 0x1f, 0xa3, 0x20, 0x71, 0xc4,
       0xc7, 0xd1, 0xf4, 0xc7, 0x33, 0xc0, 0x68, 0x03,
       0x04, 0x22, 0xaa, 0x9a, 0xc3, 0xd4, 0x6c, 0x4e,
       0xd2, 0x82, 0x64, 0x46, 0x07, 0x9f, 0xaa, 0x09,
       0x14, 0xc2, 0xd7, 0x05, 0xd9, 0x8b, 0x02, 0xa2,
       0xb5, 0x12, 0x9c, 0xd1, 0xde, 0x16, 0x4e, 0xb9,
       0xcb, 0xd0, 0x83, 0xe8, 0xa2, 0x50, 0x3c, 0x4e] := by
  rfl

/-- C1 (code bug): on the one-byte message `0x61` with the RFC key, an
all-zero nonce and an all-zero 16-byte tag buffer, `Poly1305MAC` does not
produce the RFC 8439 Poly1305 tag the spec prescribes (it leaves the tag
buffer untouched instead). -/
theorem poly1305MAC_differs_from_rfc_tag :
    Poly1305MAC (List.replicate 16 0) [0x61] 1 rfcKey (List.replicate 12 0) ≠
      specTag [0x61] rfcKey (List.replicate 12 0) := by
  have h1 : Poly1305MAC (List.replicate 16 0) [0x61] 1 rfcKey
      (List.replicate 12 0) = List.replicate 16 0 := by rfl
  have h2 : specTag [0x61] rfcKey (List.replicate 12 0) =
      [50, 97, 128, 153, 166, 173, 244, 185,
       204, 42, 166, 248, 153, 68, 95, 98] := by rfl
  rw [h1, h2]
  decide

/-- C6 (code bug): on the empty message, `Poly1305MAC` does not return
`s mod 2^128` (the spec's tag over zero chunks); it returns the tag buffer
it was handed — here all zeros. -/
theorem poly1305MAC_empty_message_not_s :
    Poly1305MAC (List.replicate 16 0) [] 0 rfcKey (List.replicate 12 0) =
        List.replicate 16 0 ∧
      Poly1305MAC (List.replicate 16 0) [] 0 rfcKey (List.replicate 12 0) ≠
        natToLE 16 (leNum (poly1305SBytes rfcKey (List.replicate 12 0)) %
          (2 ^ 128)) := by
  have h1 : Poly1305MAC (List.replicate 16 0) [] 0 rfcKey
      (List.replicate 12 0) = List.replicate 16 0 := by rfl
  have h2 : natToLE 16 (leNum (poly1305SBytes rfcKey (List.replicate 12 0)) %
      (2 ^ 128)) =
      [138, 53, 216, 111, 188, 222, 106, 204,
       178, 204, 125, 76, 216, 234, 36, 146] := by rfl
  rw [h1, h2]
  exact ⟨rfl, by decide⟩

/-- C9 (code bug): `Encrypt` called with a 33-byte key silently uses the
first 32 bytes of it — the output equals the output for the truncated key
— and signals no `InvalidKeyLength` error (the code has no error channel
at all). -/
theorem encrypt_silently_truncates_long_key :
    Encrypt [0] 1 (List.range 33) (List.replicate 12 0) =
      Encrypt [0] 1 (List.range 32) (List.replicate 12 0) := by
  rfl

/-! ### Supporting lemmas -/

theorem macIter_snd (msg tag : List Nat) (i rem : Nat) :
    (macIter msg tag i rem).2 = tag := rfl

theorem macBlocks_snd (msg : List Nat) (k : Nat) (st : Nat × List Nat) :
    (macBlocks msg k st).2 = st.2 := by
  induction k with
  | zero => rfl
  | succ k ih => simp [macBlocks, macIter_snd, ih]

/-- C7: `Poly1305MAC` returns the caller's 16-byte tag buffer exactly as it
was passed in — no iteration of the chunk loop ever stores into it. -/
theorem poly1305MAC_leaves_tag_unchanged (tag msg : List Nat) (size : Nat)
    (key nonce : List Nat) :
    Poly1305MAC tag msg size key nonce = tag := by
  unfold Poly1305MAC
  simp [macBlocks_snd]

theorem wordsToBytes_length (ws : List Nat) :
    (wordsToBytes ws).length = 4 * ws.length := by
  induction ws with
  | nil => rfl
  | cons w ws ih =>
    simp only [wordsToBytes, List.map_cons, List.flatten_cons,
      List.length_append, List.length_cons] at ih ⊢
    simp [wordBytes] at ih ⊢
    omega

theorem blockBytes_length (key nonce : List Nat) (counter : Nat) :
    (blockBytes key nonce counter).length = 64 := by
  simp [blockBytes, wordsToBytes_length, ChaCha20Block]

theorem clamp_getD (r : List Nat) (hr : r.length = 16) (i : Nat)
    (hi : i < 16) :
    (clamp r).getD i 0 =
      (if i = 3 ∨ i = 7 ∨ i = 11 ∨ i = 15 then r.getD i 0 &&& 15
       else if i = 4 ∨ i = 8 ∨ i = 12 then r.getD i 0 &&& 252
       else r.getD i 0) := by
  interval_cases i <;>
    simp [clamp, List.getD_eq_getElem?_getD, List.getElem?_set, hr]

/-- C8: the clamp of `r` in `Poly1305MAC` ANDs exactly bytes 3, 7, 11, 15
with `0x0F` and bytes 4, 8, 12 with `0xFC`, leaves every other byte of `r`
unchanged, and `r` is bytes 0-15 of the block-engine output at counter 0. -/
theorem poly1305_r_clamped (key nonce : List Nat) (i : Nat) (hi : i < 16) :
    (poly1305RBytes key nonce).getD i 0 =
      (if i = 3 ∨ i = 7 ∨ i = 11 ∨ i = 15 then
        (blockBytes key nonce 0).getD i 0 &&& 15
       else if i = 4 ∨ i = 8 ∨ i = 12 then
        (blockBytes key nonce 0).getD i 0 &&& 252
       else (blockBytes key nonce 0).getD i 0) := by
  have hlen : ((poly1305KeyBlock key nonce).take 16).length = 16 := by
    simp [blockBytes_length, poly1305KeyBlock]
  have htake : ((poly1305KeyBlock key nonce).take 16).getD i 0 =
      (blockBytes key nonce 0).getD i 0 := by
    simp [poly1305KeyBlock, List.getD_eq_getElem?_getD, List.getElem?_take, hi]
  rw [poly1305RBytes, clamp_getD _ hlen i hi, htake]

/-- C8 witness: the clamp relation evaluated at byte 4 of the RFC-vector
subkey block. -/
theorem poly1305_r_clamped_witness :
    (poly1305RBytes rfcKey rfcNonce).getD 4 0 =
      (blockBytes rfcKey rfcNonce 0).getD 4 0 &&& 252 := by
  have h := poly1305_r_clamped rfcKey rfcNonce 4 (by decide)
  simpa using h

theorem xorSlice_length (data ks : List Nat) (off len : Nat) :
    (xorSlice data ks off len).length = data.length := by
  simp [xorSlice]

theorem xorSlice_getD (data ks : List Nat) (off len idx : Nat) :
    (xorSlice data ks off len).getD idx 0 =
      if idx < data.length ∧ off ≤ idx ∧ idx < off + len then
        data.getD idx 0 ^^^ ks.getD (idx - off) 0
      else data.getD idx 0 := by
  by_cases h : idx < data.length
  · simp [xorSlice, List.getD_eq_getElem?_getD, List.getElem?_map,
      List.getElem?_range, h]
  · have h0 : data[idx]? = none := List.getElem?_eq_none (by omega)
    have h1 : (xorSlice data ks off len)[idx]? = none := by
      apply List.getElem?_eq_none
      rw [xorSlice_length]
      omega
    simp [List.getD_eq_getElem?_getD, h0, h1, h]

theorem fullBlocks_data_length (key nonce : List Nat) (ctr : Nat)
    (data : List Nat) (n : Nat) :
    (fullBlocks key nonce ctr data n).2.2.length = data.length := by
  induction n with
  | zero => rfl
  | succ n ih => simp [fullBlocks, xorSlice_length, ih]

theorem fullBlocks_fst (key nonce : List Nat) (ctr : Nat) (data : List Nat)
    (n : Nat) (hc : ctr < M32) :
    (fullBlocks key nonce ctr data n).1 = (ctr + n) % M32 := by
  induction n with
  | zero => simp [fullBlocks, Nat.mod_eq_of_lt hc]
  | succ n ih => simp [fullBlocks, ih, Nat.mod_add_mod]; ring_nf

theorem fullBlocks_trace (key nonce : List Nat) (ctr : Nat) (data : List Nat)
    (n : Nat) (hc : ctr < M32) :
    (fullBlocks key nonce ctr data n).2.1 =
      (List.range n).map (fun i => blockBytes key nonce ((ctr + i) % M32)) := by
  induction n with
  | zero => rfl
  | succ n ih =>
    simp only [fullBlocks, ih, List.range_succ, List.map_append, List.map_cons,
      List.map_nil, fullBlocks_fst key nonce ctr data n hc]

theorem fullBlocks_getD (key nonce : List Nat) (ctr : Nat) (data : List Nat)
    (n : Nat) (hc : ctr < M32) (idx : Nat) :
    (fullBlocks key nonce ctr data n).2.2.getD idx 0 =
      if idx < data.length ∧ idx < n * 64 then
        data.getD idx 0 ^^^
          (blockBytes key nonce ((ctr + idx / 64) % M32)).getD (idx % 64) 0
      else data.getD idx 0 := by
  induction n with
  | zero => simp [fullBlocks]
  | succ n ih =>
    have hlen := fullBlocks_data_length key nonce ctr data n
    simp only [fullBlocks, xorSlice_getD, hlen,
      fullBlocks_fst key nonce ctr data n hc, ih]
    by_cases hA : idx < data.length ∧ n * 64 ≤ idx ∧ idx < n * 64 + 64
    · have hdiv : idx / 64 = n := by omega
      have hmod : idx % 64 = idx - n * 64 := by omega
      have hnot : ¬(idx < data.length ∧ idx < n * 64) := by omega
      have hyes : idx < data.length ∧ idx < (n + 1) * 64 := by omega
      simp [hA, hnot, hyes, hdiv, hmod]
    · simp only [if_neg hA]
      by_cases hB : idx < data.length ∧ idx < n * 64
      · have hyes : idx < data.length ∧ idx < (n + 1) * 64 := by omega
        simp [hB, hyes]
      · have hnot : ¬(idx < data.length ∧ idx < (n + 1) * 64) := by omega
        simp [hB, hnot]

theorem encrypt_length (data : List Nat) (size : Nat) (key nonce : List Nat) :
    (Encrypt data size key nonce).length = data.length := by
  by_cases h : size % 64 = 0
  · simp [Encrypt, EncryptRun, h, fullBlocks_data_length]
  · simp [Encrypt, EncryptRun, h, xorSlice_length, fullBlocks_data_length]

theorem encrypt_getD (data : List Nat) (size : Nat) (key nonce : List Nat)
    (idx : Nat) :
    (Encrypt data size key nonce).getD idx 0 =
      if idx < data.length ∧ idx < size then
        data.getD idx 0 ^^^
          (blockBytes key nonce ((1 + idx / 64) % M32)).getD (idx % 64) 0
      else data.getD idx 0 := by
  have h1 : (1 : Nat) < M32 := by norm_num [M32]
  have hsz : size / 64 * 64 + size % 64 = size := by
    have := Nat.div_add_mod size 64
    omega
  have hm : size % 64 < 64 := Nat.mod_lt _ (by norm_num)
  by_cases h : size % 64 = 0
  · simp only [Encrypt, EncryptRun, h, ne_eq, not_true_eq_false, if_false,
      ite_false]
    rw [fullBlocks_getD key nonce 1 data (size / 64) h1 idx]
    have he : size / 64 * 64 = size := by omega
    rw [he]
  · simp only [Encrypt, EncryptRun, ne_eq, h, not_false_eq_true, if_true,
      ite_true]
    rw [xorSlice_getD, fullBlocks_data_length,
      fullBlocks_fst key nonce 1 data (size / 64) h1,
      fullBlocks_getD key nonce 1 data (size / 64) h1 idx]
    by_cases hT : idx < data.length ∧ size / 64 * 64 ≤ idx ∧
        idx < size / 64 * 64 + size % 64
    · have hdiv : idx / 64 = size / 64 := by omega
      have hmod : idx % 64 = idx - size / 64 * 64 := by omega
      have hnotF : ¬(idx < data.length ∧ idx < size / 64 * 64) := by omega
      have hyes : idx < data.length ∧ idx < size := by omega
      simp [hT, hnotF, hyes, hdiv, hmod]
    · rw [if_neg hT]
      by_cases hF : idx < data.length ∧ idx < size / 64 * 64
      · have hyes : idx < data.length ∧ idx < size := by omega
        simp [hF, hyes]
      · have hno : ¬(idx < data.length ∧ idx < size) := by omega
        simp [hF, hno]

theorem encrypt_trace (data : List Nat) (size : Nat) (key nonce : List Nat) :
    (EncryptRun data size key nonce).1 =
      (List.range (size / 64 + if size % 64 = 0 then 0 else 1)).map
        (fun i => blockBytes key nonce ((1 + i) % M32)) := by
  have h1 : (1 : Nat) < M32 := by norm_num [M32]
  by_cases h : size % 64 = 0
  · simp only [EncryptRun, h, ne_eq, not_true_eq_false, if_false, ite_false,
      ite_true, Nat.add_zero]
    exact fullBlocks_trace key nonce 1 data (size / 64) h1
  · simp only [EncryptRun, ne_eq, h, not_false_eq_true, if_true, ite_true,
      ite_false, fullBlocks_trace key nonce 1 data (size / 64) h1,
      fullBlocks_fst key nonce 1 data (size / 64) h1, List.range_succ,
      List.map_append, List.map_cons, List.map_nil]

/-- C4: `Encrypt` starts the block counter at 1 and generates one keystream
block per full 64-byte slice plus one more for a nonempty tail — the
generated blocks are exactly the blocks at counters `1, 2, ...` (as 32-bit
values) — and each byte `idx` below `size` is XORed in place with byte
`idx mod 64` of the block generated at counter `1 + idx/64`. -/
theorem encrypt_blocks_and_xor (data key nonce : List Nat) (size idx : Nat)
    (hs : size ≤ data.length) (hi : idx < size) :
    (EncryptRun data size key nonce).1 =
      (List.range (size / 64 + if size % 64 = 0 then 0 else 1)).map
        (fun i => blockBytes key nonce ((1 + i) % M32)) ∧
    (Encrypt data size key nonce).getD idx 0 =
      data.getD idx 0 ^^^
        (blockBytes key nonce ((1 + idx / 64) % M32)).getD (idx % 64) 0 := by
  refine ⟨encrypt_trace data size key nonce, ?_⟩
  rw [encrypt_getD]
  have : idx < data.length ∧ idx < size := by omega
  simp [this]

/-- C4 witness: a 70-byte all-zero buffer, evaluated at byte 65 (inside the
6-byte tail block, counter 2). -/
theorem encrypt_blocks_and_xor_witness :
    (EncryptRun (List.replicate 70 0) 70 rfcKey rfcNonce).1 =
      (List.range 2).map (fun i => blockBytes rfcKey rfcNonce ((1 + i) % M32)) ∧
    (Encrypt (List.replicate 70 0) 70 rfcKey rfcNonce).getD 65 0 =
      (List.replicate 70 (0 : Nat)).getD 65 0 ^^^
        (blockBytes rfcKey rfcNonce ((1 + 65 / 64) % M32)).getD (65 % 64) 0 := by
  have h := encrypt_blocks_and_xor (List.replicate 70 0) rfcKey rfcNonce 70 65
    (by simp) (by norm_num)
  simpa using h

/-- C3: decrypting an encryption restores the buffer — `Decrypt` is the
same XOR transform as `Encrypt`, and XOR is self-inverse. -/
theorem decrypt_encrypt_roundtrip (data key nonce : List Nat)
    (_hk : key.length = 32) (_hn : nonce.length = 12) :
    Decrypt (Encrypt data data.length key nonce) data.length key nonce =
      data := by
  apply List.ext_getElem
  · rw [Decrypt, encrypt_length, encrypt_length]
  · intro n h1 h2
    have hl1 : (Encrypt data data.length key nonce).length = data.length :=
      encrypt_length data data.length key nonce
    have hA : (Decrypt (Encrypt data data.length key nonce) data.length key
        nonce).getD n 0 =
        (Decrypt (Encrypt data data.length key nonce) data.length key
          nonce)[n] := by
      simp [List.getD_eq_getElem?_getD, List.getElem?_eq_getElem h1]
    have hB : data.getD n 0 = data[n] := by
      simp [List.getD_eq_getElem?_getD, List.getElem?_eq_getElem h2]
    rw [← hA, ← hB]
    rw [Decrypt, encrypt_getD, encrypt_getD]
    have hc : n < data.length ∧ n < data.length := ⟨h2, h2⟩
    have hc1 : n < (Encrypt data data.length key nonce).length ∧
        n < data.length := ⟨by omega, h2⟩
    simp only [hc, hc1, and_self, if_true, ite_true]
    rw [Nat.xor_assoc, Nat.xor_self, Nat.xor_zero]

/-- C3 witness: a concrete 3-byte round trip under the RFC key and an
all-zero nonce. -/
theorem decrypt_encrypt_roundtrip_witness :
    Decrypt (Encrypt [1, 2, 3] 3 rfcKey (List.replicate 12 0)) 3 rfcKey
      (List.replicate 12 0) = [1, 2, 3] := by
  have h := decrypt_encrypt_roundtrip [1, 2, 3] rfcKey (List.replicate 12 0)
    (by rfl) (by rfl)
  simpa using h

/-- C10: `Encrypt` modifies only the first `size` bytes of the buffer:
every byte at an index at or past `size` is unchanged, the buffer keeps
its length, and a call with `size = 0` returns the buffer untouched having
generated no keystream block. -/
theorem encrypt_modifies_only_first_size (data key nonce : List Nat)
    (size idx : Nat) (h : size ≤ idx) :
    (Encrypt data size key nonce).getD idx 0 = data.getD idx 0 ∧
    (Encrypt data size key nonce).length = data.length ∧
    Encrypt data 0 key nonce = data ∧
    (EncryptRun data 0 key nonce).1 = [] := by
  refine ⟨?_, encrypt_length data size key nonce, rfl, rfl⟩
  rw [encrypt_getD]
  have hno : ¬(idx < data.length ∧ idx < size) := by omega
  simp [hno]

/-- C10 witness: a 6-byte buffer encrypted with `size = 3`, checked at
index 5. -/
theorem encrypt_modifies_only_first_size_witness :
    (Encrypt [10, 20, 30, 40, 50, 60] 3 rfcKey (List.replicate 12 0)).getD
        5 0 = (List.getD [10, 20, 30, 40, 50, 60] 5 0) ∧
    (Encrypt [10, 20, 30, 40, 50, 60] 3 rfcKey
        (List.replicate 12 0)).length = 6 ∧
    Encrypt [10, 20, 30, 40, 50, 60] 0 rfcKey (List.replicate 12 0) =
      [10, 20, 30, 40, 50, 60] ∧
    (EncryptRun [10, 20, 30, 40, 50, 60] 0 rfcKey
        (List.replicate 12 0)).1 = [] := by
  have h := encrypt_modifies_only_first_size [10, 20, 30, 40, 50, 60] rfcKey
    (List.replicate 12 0) 3 5 (by norm_num)
  simpa using h

/-- C5 (code bug): on a message of `2^38` bytes (`2^32` full blocks) the
block generated for the last full slice is the keystream block at counter
0 — the `uint32_t` counter has silently wrapped past `0xFFFFFFFF` and the
block coincides with the one `Poly1305GenKey` uses to derive the MAC
subkey; no `CounterOverflow` error exists anywhere in the code. -/
theorem encrypt_counter_wraps_reusing_keygen_block :
    (EncryptRun (List.replicate (2 ^ 38) 0) (2 ^ 38) rfcKey rfcNonce).1.getD
        (2 ^ 32 - 1) [] = poly1305KeyBlock rfcKey rfcNonce := by
  rw [encrypt_trace]
  have h1 : (2 ^ 38 : Nat) % 64 = 0 := by norm_num
  have h2 : (2 ^ 38 : Nat) / 64 = 2 ^ 32 := by norm_num
  simp only [h1, h2, if_true, ite_true, Nat.add_zero]
  have h3 : (2 ^ 32 - 1 : Nat) < 2 ^ 32 := by norm_num
  simp only [List.getD_eq_getElem?_getD, List.getElem?_map,
    List.getElem?_range, h3, if_pos h3, Option.map_some', Option.getD_some]
  have h4 : (1 + (2 ^ 32 - 1)) % M32 = 0 := by norm_num [M32]
  rw [h4]
  rfl
